import Mathlib

/-!
# Verification of the webpack-assets-manifest plugin core

A shallow embedding of the manifest store, customize pipeline, merge engine
and asset-report pipeline of `src/plugin.ts` (with its helpers from
`src/helpers.ts` and `src/type-predicate.ts`), together with theorems about
the behaviour of these operations.

JavaScript values are modelled by the inductive type `JsValue`; objects are
association lists with unique insertion-ordered keys (property assignment
keeps the position of an existing key and appends new keys, as in V8).
Machine-level aspects that the plugin never relies on (prototype chains,
symbol keys, floating point beyond integers) are not modelled; each such
simplification is noted next to the definition it concerns.
-/

namespace WAM

/-- Model of a JavaScript/JSON value as it flows through the plugin. -/
inductive JsValue where
  | null
  | undefined
  | bool (b : Bool)
  | num (n : Int)
  | str (s : String)
  | arr (elems : List JsValue)
  | obj (fields : List (String × JsValue))

/-- JS truthiness (`Boolean(v)`); `NaN` is not modelled (numbers are integers). -/
def truthy : JsValue → Bool
  | .null => false
  | .undefined => false
  | .bool b => b
  | .num n => n != 0
  | .str s => s != ""
  | .arr _ => true
  | .obj _ => true

/-- `Array.isArray`. -/
def isArray : JsValue → Bool
  | .arr _ => true
  | _ => false

/-- `isObject` from `src/type-predicate.ts`:
`input !== null && typeof input === 'object' && !Array.isArray(input)`. -/
def isObject : JsValue → Bool
  | .obj _ => true
  | _ => false

/-- `Object.hasOwn(fields, k)` for an object's field list (also used for
`Map.has`).  Field lists built by `objSet` have unique keys, as JS objects
and maps do. -/
def hasOwnKey {α : Type} (fields : List (String × α)) (k : String) : Bool :=
  fields.any (fun p => p.1 == k)

/-- Property read `fields[k]` (own properties only; the plugin never stores
data on prototypes).  Also models `Map.get`. -/
def objGet {α : Type} (fields : List (String × α)) (k : String) : Option α :=
  (fields.find? (fun p => p.1 == k)).map Prod.snd

/-- Property assignment `fields[k] = v` (and `Map.set`): an existing key
keeps its position and gets the new value, a new key is appended. -/
def objSet {α : Type} : List (String × α) → String → α → List (String × α)
  | [], k, v => [(k, v)]
  | p :: rest, k, v => if p.1 == k then (k, v) :: rest else p :: objSet rest k v

/-- `delete fields[k]`. -/
def objDelete {α : Type} (fields : List (String × α)) (k : String) :
    List (String × α) :=
  fields.filter (fun p => !(p.1 == k))

/-- `isKeyValuePair` from `src/type-predicate.ts`:
`isObject(input) && (Object.hasOwn(input, 'key') || Object.hasOwn(input, 'value'))`. -/
def isKeyValuePair : JsValue → Bool
  | .obj fs => hasOwnKey fs "key" || hasOwnKey fs "value"
  | _ => false

/-- Model of strict equality `a === b` as used in `set()` to detect whether a
customize hook replaced the computed value.  Primitives compare by value;
objects and arrays compare by reference, which is modelled as `false`: a hook
that builds a fresh object is never reference-equal to the computed value, and
a hook returning the very entry object it received is not modelled. -/
def jsStrictEqModel : JsValue → JsValue → Bool
  | .null, .null => true
  | .undefined, .undefined => true
  | .bool a, .bool b => a == b
  | .num a, .num b => a == b
  | .str a, .str b => a == b
  | _, _ => false

/-- Is the value `null` or `undefined`? -/
def isNullish : JsValue → Bool
  | .null => true
  | .undefined => true
  | _ => false

/-- JS `ToString` as used when a value becomes a property key
(`this.assets[key] = value` coerces the key).  `Array.prototype.toString`
joins the element conversions with `","`, rendering `null` and `undefined`
elements as the empty string. -/
def jsToPropKey : JsValue → String
  | .null => "null"
  | .undefined => "undefined"
  | .bool b => cond b "true" "false"
  | .num n => toString n
  | .str s => s
  | .obj _ => "[object Object]"
  | .arr xs =>
      String.intercalate "," (xs.attach.map (fun ⟨v, h⟩ =>
        if isNullish v then "" else jsToPropKey v))
termination_by v => sizeOf v
decreasing_by
  simp_wf
  have := List.sizeOf_lt_of_mem h
  omega

/-! ## Options and manifest state -/

/-- The `merge` option: `false`, `true`, or `'customize'`. -/
inductive MergeMode where
  | off
  | on
  | customize
deriving DecidableEq

/-- The `fileExtRegex` option: a regular expression, or `false` (fall back to
`path.extname`).  A regular expression is modelled by its
leftmost-match function `String.match` (the full matched substring, if any). -/
inductive ExtCfg where
  | regex (matchFirst : String → Option String)
  | extname

/-- The options consulted by the modelled operations.  `publicPath` is
modelled by the filename rewriting it induces (`getPublicPath` applies it to
string values); `none` stands for the default (`undefined`/`false`), which
leaves the filename unchanged. -/
structure Options where
  merge : MergeMode
  integrity : Bool
  integrityPropertyName : String
  publicPath : Option (String → String)
  sortManifest : Bool
  entrypoints : Bool
  entrypointsKey : Option String
  entrypointsUseAssets : Bool
  contextRelativeKeys : Bool
  fileExtRegex : ExtCfg

/-- A compilation asset: its output `name` and its `info` bag
(`hotModuleReplacement`, `assetsManifest`, `sourceFilename`, integrity data,
and arbitrary producer-attached fields). -/
structure CAsset where
  name : String
  info : List (String × JsValue)

/-- The mutable instance state used by the store operations: the `assets`
storage object, the private `#isMerging` flag and `currentAsset`. -/
structure ManifestState where
  assets : List (String × JsValue)
  isMerging : Bool
  currentAsset : Option CAsset

/-- `fixKey`: replace every backslash with a forward slash.  Keys are strings
in this model (the `typeof key === 'string'` guard of the source is about
numeric keys, which the plugin itself never produces). -/
def fixKey (key : String) : String :=
  ⟨key.data.map (fun c => if c = '\\' then '/' else c)⟩

/-- `getPublicPath`: apply the configured public-path rewriting to a
filename; with the option unset the filename is returned unchanged. -/
def getPublicPath (opts : Options) (filename : String) : String :=
  match opts.publicPath with
  | some f => f filename
  | none => filename

/-! ## The customize waterfall -/

/-- What a single `customize` tap returns: a JS value, or `undefined`
(also covering a bare `return`). -/
inductive TapResult where
  | ret (v : JsValue)
  | undef

/-- A `customize` tap, as a function of the current entry and the original
`{key, value}` pair.  (Taps also receive the manifest instance and the
current asset; the hooks reasoned about here do not consult them.) -/
abbrev CustomizeTap := JsValue → JsValue → TapResult

/-- `SyncWaterfallHook.call`: each tap receives the current value and the
fixed extra argument; a tap returning `undefined` leaves the current value
unchanged, any other return value replaces it. -/
def waterfall (taps : List CustomizeTap) (initial original : JsValue) : JsValue :=
  taps.foldl (fun cur t =>
    match t cur original with
    | .ret v => v
    | .undef => cur) initial

/-! ## Store operations (`setRaw`, `set`, `has`, `get`, `delete`) -/

/-- `setRaw(key, value)`: `this.assets[key] = value`. -/
def setRaw (st : ManifestState) (key : String) (value : JsValue) : ManifestState :=
  { st with assets := objSet st.assets key value }

/-- The computed value of `set`: public-path rewriting applies to string
values only (`typeof value === 'string' ? this.getPublicPath(value) : value`). -/
def computedValue (opts : Options) (value : JsValue) : JsValue :=
  match value with
  | .str s => .str (getPublicPath opts s)
  | v => v

/-- The first argument of the customize waterfall:
`{ key: fixedKey, value: publicPath }`. -/
def initialEntry (opts : Options) (key : String) (value : JsValue) : JsValue :=
  .obj [("key", .str (fixKey key)), ("value", computedValue opts value)]

/-- The second argument of the customize waterfall: `{ key, value }`. -/
def originalEntry (key : String) (value : JsValue) : JsValue :=
  .obj [("key", .str key), ("value", value)]

/-- Property lookup as used by destructuring with defaults
(`let { key = fixedKey, value = publicPath } = entry`): the default applies
when the property is missing or `undefined`. -/
def fieldForDestructuring (fields : List (String × JsValue)) (k : String) :
    Option JsValue :=
  match objGet fields k with
  | some .undefined => none
  | o => o

/-- `this.currentAsset?.info[this.options.integrityPropertyName] ?? ''`:
the recorded digest of the current asset, or the empty string when there is
no current asset or no (non-nullish) recorded digest. -/
def integrityValue (opts : Options) (st : ManifestState) : JsValue :=
  match st.currentAsset with
  | none => .str ""
  | some a =>
    match objGet a.info opts.integrityPropertyName with
    | some v => if isNullish v then .str "" else v
    | none => .str ""

/-- The fields of an entry known to be a key/value pair object. -/
def entryFields : JsValue → List (String × JsValue)
  | .obj fs => fs
  | _ => []

/-- `set(key, value)` from `src/plugin.ts`.  Returns the new state together
with the list of warnings the call logs; no statement of the source's `set`
logs anything, so that list is `[]` on every path. -/
def set (opts : Options) (taps : List CustomizeTap) (st : ManifestState)
    (key : String) (value : JsValue) : ManifestState × List String :=
  if st.isMerging ∧ opts.merge ≠ MergeMode.customize then
    -- Do not fix the key if merging since it should already be correct.
    (setRaw st key value, [])
  else
    let entry := waterfall taps (initialEntry opts key value) (originalEntry key value)
    match entry with
    | .bool false => (st, [])  -- allow the entry to be skipped
    | e =>
      if isKeyValuePair e then
        let fs := entryFields e
        let newKey := match fieldForDestructuring fs "key" with
          | some k => jsToPropKey k
          | none => fixKey key
        let baseVal := (fieldForDestructuring fs "value").getD (computedValue opts value)
        -- `value === publicPath`: true when the destructuring default applied,
        -- otherwise strict equality of the provided field with the computed value.
        let valueIsComputed := match fieldForDestructuring fs "value" with
          | none => true
          | some v => jsStrictEqModel v (computedValue opts value)
        let newVal := if valueIsComputed && opts.integrity then
            .obj [("src", baseVal), ("integrity", integrityValue opts st)]
          else baseVal
        (setRaw st newKey newVal, [])
      else
        -- a non-false, non-key/value-pair waterfall result: use the initial key/value
        (setRaw st (fixKey key) (computedValue opts value), [])

/-- `has(key)`: check the literal key and its normalized form. -/
def has (st : ManifestState) (key : String) : Bool :=
  hasOwnKey st.assets key || hasOwnKey st.assets (fixKey key)

/-- `get(key, defaultValue)`:
`this.assets[key] || this.assets[this.fixKey(key)] || defaultValue`
(truthiness-chained; a missing property reads as `undefined`). -/
def get (st : ManifestState) (key : String) (defaultValue : JsValue) : JsValue :=
  let a := (objGet st.assets key).getD .undefined
  if truthy a then a
  else
    let b := (objGet st.assets (fixKey key)).getD .undefined
    if truthy b then b else defaultValue

/-- `delete(key)`: try the literal key, then the normalized form; returns
whether anything was removed, together with the new state. -/
def delete (st : ManifestState) (key : String) : Bool × ManifestState :=
  if hasOwnKey st.assets key then
    (true, { st with assets := objDelete st.assets key })
  else
    let k := fixKey key
    if hasOwnKey st.assets k then
      (true, { st with assets := objDelete st.assets k })
    else (false, st)

/-! ## Extension detection (`getExtension`) -/

/-- `filename.split(/[?#]/)[0]`: the part before the first `?` or `#`. -/
def stripQueryFragment (filename : String) : String :=
  ⟨filename.data.takeWhile (fun c => c != '?' && c != '#')⟩

/-- `path.basename` (posix), for ordinary paths: trailing slashes are
dropped, then everything after the last remaining slash is returned. -/
def basenamePosix (p : String) : String :=
  ⟨((p.data.reverse.dropWhile (· == '/')).takeWhile (· != '/')).reverse⟩

/-- `path.extname` (posix) on ordinary filenames: the suffix of the basename
from its last dot, empty when the basename has no dot or only a leading dot.
(Node's special-casing of all-dot names such as `".."` is not distinguished;
such names never denote assets.) -/
def extname (p : String) : String :=
  let rb := p.data.reverse.takeWhile (fun c => c != '/')
  let pre := rb.takeWhile (fun c => c != '.')
  if pre.length = rb.length then ""
  else if pre.length + 1 = rb.length then ""
  else ⟨'.' :: pre.reverse⟩

/-- `\w` (ASCII word character). -/
def isWordChar (c : Char) : Bool :=
  ('a' ≤ c && c ≤ 'z') || ('A' ≤ c && c ≤ 'Z') || ('0' ≤ c && c ≤ '9') || c == '_'

/-- Case-insensitive match of `(?:map|gz|br)` against the whole list. -/
def isMapGzBr (l : List Char) : Bool :=
  let low := l.map Char.toLower
  low == ['m', 'a', 'p'] || low == ['g', 'z'] || low == ['b', 'r']

/-- Does `\.\w{2,4}\.(?:map|gz|br)$` match the whole suffix `l`? -/
def altDoubleExt (l : List Char) : Bool :=
  match l with
  | '.' :: rest =>
    [2, 3, 4].any (fun n =>
      decide (n < rest.length) && (rest.take n).all isWordChar &&
      (match rest.drop n with
       | '.' :: t => isMapGzBr t
       | _ => false))
  | _ => false

/-- Does `\.\w+$` match the whole suffix `l`? -/
def altSimpleExt : List Char → Bool
  | '.' :: rest => !rest.isEmpty && rest.all isWordChar
  | _ => false

/-- Scan match positions left to right; both alternatives of the default
regex are anchored at `$`, so a match is always a whole suffix and the
leftmost match is the longest matching suffix. -/
def scanExtSuffix : List Char → Option (List Char)
  | [] => none
  | c :: rest =>
    if altDoubleExt (c :: rest) || altSimpleExt (c :: rest) then some (c :: rest)
    else scanExtSuffix rest

/-- `String.match` with the default
`fileExtRegex = /\.\w{2,4}\.(?:map|gz|br)$|\.\w+$/i`. -/
def defaultFileExtMatch (s : String) : Option String :=
  (scanExtSuffix s.data).map (fun l => ⟨l⟩)

/-- `getExtension(filename)` from `src/plugin.ts`: empty for an empty
filename, otherwise strip query string and fragment, then match the
configured regex (returning the matched text or `''`), or fall back to
`path.extname`. -/
def getExtension (cfg : ExtCfg) (filename : String) : String :=
  if filename = "" then ""
  else
    let f := stripQueryFragment filename
    match cfg with
    | .regex m => (m f).getD ""
    | .extname => extname f

/-! ## Helper lemmas about object field lists -/

theorem hasOwnKey_objSet_self {α : Type} (l : List (String × α)) (k : String) (v : α) :
    hasOwnKey (objSet l k v) k = true := by
  induction l with
  | nil => simp [objSet, hasOwnKey]
  | cons p rest ih =>
    by_cases hp : (p.1 == k) = true
    · rw [objSet, if_pos hp]
      simp [hasOwnKey]
    · rw [objSet, if_neg hp]
      simp only [hasOwnKey, List.any_cons, Bool.or_eq_true]
      exact Or.inr (by simpa [hasOwnKey] using ih)

theorem hasOwnKey_objSet_of_ne {α : Type} (l : List (String × α)) (k k' : String) (v : α)
    (hne : k' ≠ k) : hasOwnKey (objSet l k v) k' = hasOwnKey l k' := by
  have hkk : (k == k') = false := by simpa using Ne.symm hne
  induction l with
  | nil => simp [objSet, hasOwnKey, hkk]
  | cons p rest ih =>
    by_cases hp : (p.1 == k) = true
    · rw [objSet, if_pos hp]
      have hpk : p.1 = k := by simpa using hp
      simp [hasOwnKey, hkk, hpk]
    · rw [objSet, if_neg hp]
      simp only [hasOwnKey, List.any_cons] at ih ⊢
      rw [ih]

theorem objGet_eq_none_of_hasOwnKey_false {α : Type} (l : List (String × α)) (k : String)
    (h : hasOwnKey l k = false) : objGet l k = none := by
  induction l with
  | nil => rfl
  | cons p rest ih =>
    simp only [hasOwnKey, List.any_cons, Bool.or_eq_false_iff] at h
    simp only [objGet, List.find?_cons, h.1]
    exact ih h.2

theorem objGet_objSet_self {α : Type} (l : List (String × α)) (k : String) (v : α) :
    objGet (objSet l k v) k = some v := by
  induction l with
  | nil => simp [objSet, objGet]
  | cons p rest ih =>
    by_cases hp : (p.1 == k) = true
    · rw [objSet, if_pos hp]
      simp [objGet]
    · have hp' : (p.1 == k) = false := by simpa using hp
      rw [objSet, if_neg hp]
      simp only [objGet, List.find?_cons, hp']
      simpa [objGet] using ih

theorem objGet_objSet_of_ne {α : Type} (l : List (String × α)) (k k' : String) (v : α)
    (hne : k' ≠ k) : objGet (objSet l k v) k' = objGet l k' := by
  have hkk : (k == k') = false := by simpa using Ne.symm hne
  induction l with
  | nil => simp [objSet, objGet, hkk]
  | cons p rest ih =>
    by_cases hp : (p.1 == k) = true
    · have hpk : p.1 = k := by simpa using hp
      have h2 : (p.1 == k') = false := by rw [hpk]; exact hkk
      rw [objSet, if_pos hp]
      simp [objGet, List.find?_cons, hkk, h2]
    · rw [objSet, if_neg hp]
      by_cases hpk : (p.1 == k') = true
      · simp [objGet, List.find?_cons, hpk]
      · have h2 : (p.1 == k') = false := by simpa using hpk
        simp only [objGet, List.find?_cons, h2]
        simpa [objGet] using ih

theorem objSet_length_of_hasOwnKey {α : Type} (l : List (String × α)) (k : String) (v : α)
    (h : hasOwnKey l k = true) : (objSet l k v).length = l.length := by
  induction l with
  | nil => simp [hasOwnKey] at h
  | cons p rest ih =>
    by_cases hp : (p.1 == k) = true
    · rw [objSet, if_pos hp]
      simp
    · rw [objSet, if_neg hp]
      simp only [hasOwnKey, List.any_cons, Bool.or_eq_true] at h
      rcases h with h | h
      · exact absurd h hp
      · simp only [List.length_cons]
        rw [ih h]

theorem fixKey_idem (k : String) : fixKey (fixKey k) = fixKey k := by
  unfold fixKey
  simp only [List.map_map]
  congr 1
  apply List.map_congr_left
  intro c _
  by_cases h : c = '\\' <;> simp [h, Function.comp]

/-! ## Concrete fixtures used by witnesses and counterexamples -/

/-- The plugin's default options (`defaultOptions` getter of `src/plugin.ts`),
restricted to the fields of the model. -/
def defaultOptions : Options :=
  { merge := .off
    integrity := false
    integrityPropertyName := "integrity"
    publicPath := none
    sortManifest := true
    entrypoints := false
    entrypointsKey := some "entrypoints"
    entrypointsUseAssets := false
    contextRelativeKeys := false
    fileExtRegex := .regex defaultFileExtMatch }

/-- A fresh manifest instance state. -/
def freshState : ManifestState :=
  { assets := [], isMerging := false, currentAsset := none }

/-- A customize hook that drops every entry. -/
def dropTap : CustomizeTap := fun _ _ => .ret (.bool false)

/-- A customize hook returning `3.14`-style junk (here the number `3`):
not `false`, not `undefined`, and not a key/value pair. -/
def unexpectedTap : CustomizeTap := fun _ _ => .ret (.num 3)

/-! ## C4: customize returning `false` drops the entry -/

/-- C4: if the customize waterfall returns `false` for a `set(key, value)`
call, no entry is stored by that call: the state is unchanged, so any key
absent before is absent afterwards, every entry reads the same, and the
number of entries is unchanged. -/
theorem set_customize_false_drops_entry
    (opts : Options) (taps : List CustomizeTap) (st : ManifestState)
    (key : String) (value : JsValue)
    (hmode : ¬(st.isMerging ∧ opts.merge ≠ MergeMode.customize))
    (hdrop : waterfall taps (initialEntry opts key value) (originalEntry key value)
              = .bool false) :
    (set opts taps st key value).1 = st ∧
    (∀ k, has st k = false → has (set opts taps st key value).1 k = false) ∧
    (∀ k, objGet (set opts taps st key value).1.assets k = objGet st.assets k) ∧
    (set opts taps st key value).1.assets.length = st.assets.length := by
  have hset : set opts taps st key value = (st, []) := by
    simp only [set, if_neg hmode, hdrop]
  exact ⟨by rw [hset], fun k hk => by rw [hset]; exact hk,
    fun k => by rw [hset], by rw [hset]⟩

/-- Witness for C4 at a concrete input: a hook returning `false` leaves a
fresh store empty. -/
theorem set_customize_false_drops_entry_witness :
    ¬(freshState.isMerging ∧ defaultOptions.merge ≠ MergeMode.customize) ∧
    waterfall [dropTap] (initialEntry defaultOptions "app.js" (.str "app.1.js"))
        (originalEntry "app.js" (.str "app.1.js")) = .bool false ∧
    (set defaultOptions [dropTap] freshState "app.js" (.str "app.1.js")).1 = freshState :=
  ⟨by decide, rfl,
    (set_customize_false_drops_entry defaultOptions [dropTap] freshState
      "app.js" (.str "app.1.js") (by decide) rfl).1⟩

/-! ## C5: integrity wrapping -/

/-- C5: with `integrity` enabled and the customize waterfall not overriding
the computed entry, `set(key, value)` for a string value stores
`{src: <public-path-rewritten value>, integrity: <digest>}` under the
normalized key, where the digest is the one recorded on the current asset
under `integrityPropertyName`, and the empty string when none is recorded or
there is no current asset. -/
theorem set_integrity_wraps
    (opts : Options) (taps : List CustomizeTap) (st : ManifestState)
    (key v : String)
    (hmode : ¬(st.isMerging ∧ opts.merge ≠ MergeMode.customize))
    (hintegrity : opts.integrity = true)
    (hnoov : waterfall taps (initialEntry opts key (.str v)) (originalEntry key (.str v))
              = initialEntry opts key (.str v)) :
    (set opts taps st key (.str v)).1.assets
      = objSet st.assets (fixKey key)
          (.obj [("src", .str (getPublicPath opts v)),
                 ("integrity", integrityValue opts st)]) ∧
    (st.currentAsset = none → integrityValue opts st = .str "") ∧
    (∀ a, st.currentAsset = some a →
        objGet a.info opts.integrityPropertyName = none →
        integrityValue opts st = .str "") ∧
    (∀ a d, st.currentAsset = some a →
        objGet a.info opts.integrityPropertyName = some (.str d) →
        integrityValue opts st = .str d) := by
  refine ⟨?_, ?_, ?_, ?_⟩
  · simp only [set, if_neg hmode, hnoov]
    simp [initialEntry, computedValue, isKeyValuePair, hasOwnKey, entryFields,
      fieldForDestructuring, objGet, jsToPropKey, jsStrictEqModel, hintegrity, setRaw]
  · intro h
    simp [integrityValue, h]
  · intro a ha hnone
    simp [integrityValue, ha, hnone]
  · intro a d ha hd
    simp [integrityValue, ha, hd, isNullish]

/-- State for the C5 witness: the current asset carries the recorded digest
`"sha256-XYZ"`. -/
def integrityState : ManifestState :=
  { assets := []
    isMerging := false
    currentAsset := some { name := "x.abc.js", info := [("integrity", .str "sha256-XYZ")] } }

/-- Options for the C5 witness: defaults with `integrity: true`. -/
def integrityOptions : Options := { defaultOptions with integrity := true }

/-- Witness for C5 at the claim's concrete scenario:
`set("x.js", "x.abc.js")` with recorded digest `"sha256-XYZ"` stores
`{"src": "x.abc.js", "integrity": "sha256-XYZ"}`. -/
theorem set_integrity_wraps_witness :
    integrityOptions.integrity = true ∧
    (set integrityOptions [] integrityState "x.js" (.str "x.abc.js")).1.assets
      = [("x.js", .obj [("src", .str "x.abc.js"), ("integrity", .str "sha256-XYZ")])] :=
  ⟨rfl,
    ((set_integrity_wraps integrityOptions [] integrityState "x.js" "x.abc.js"
      (by decide) rfl rfl).1).trans rfl⟩

/-! ## C7: customize returning an unexpected shape -/

/-- C7 counterexample: in `src/plugin.ts`, `set()` contains no logging call
on any path, so a hook returning the unexpected value `3` produces no
warning; the computed key and value are stored as if no customization had
occurred.  This refutes the claim that a one-time warning is logged. -/
theorem set_unexpected_shape_no_warning :
    (set defaultOptions [unexpectedTap] freshState "hello" (.str "world")).2 = [] ∧
    (set defaultOptions [unexpectedTap] freshState "hello" (.str "world")).1.assets
      = [("hello", .str "world")] :=
  ⟨rfl, rfl⟩

/-- C7 amended: when the customize waterfall yields a value that is neither
`false` nor a key/value pair, `set` stores the computed (default) key and
value unchanged and logs nothing. -/
theorem set_unexpected_shape_falls_back
    (opts : Options) (taps : List CustomizeTap) (st : ManifestState)
    (key : String) (value : JsValue)
    (hmode : ¬(st.isMerging ∧ opts.merge ≠ MergeMode.customize))
    (hnf : waterfall taps (initialEntry opts key value) (originalEntry key value)
            ≠ .bool false)
    (hshape : isKeyValuePair
        (waterfall taps (initialEntry opts key value) (originalEntry key value)) = false) :
    set opts taps st key value = (setRaw st (fixKey key) (computedValue opts value), []) := by
  unfold set
  rw [if_neg hmode]
  generalize hw : waterfall taps (initialEntry opts key value) (originalEntry key value) = e
  rw [hw] at hnf hshape
  cases e with
  | bool b =>
    cases b with
    | false => exact absurd rfl hnf
    | true => simp [hshape]
  | null => simp [hshape]
  | undefined => simp [hshape]
  | num n => simp [hshape]
  | str s => simp [hshape]
  | arr xs => simp [hshape]
  | obj fs => simp [hshape]

/-- Witness for the amended C7 at a concrete input. -/
theorem set_unexpected_shape_falls_back_witness :
    isKeyValuePair (waterfall [unexpectedTap]
        (initialEntry defaultOptions "hello" (.str "world"))
        (originalEntry "hello" (.str "world"))) = false ∧
    set defaultOptions [unexpectedTap] freshState "hello" (.str "world")
      = (setRaw freshState "hello" (.str "world"), []) :=
  ⟨rfl,
    (set_unexpected_shape_falls_back defaultOptions [unexpectedTap] freshState
      "hello" (.str "world") (by decide) (fun h => JsValue.noConfusion h) rfl).trans rfl⟩

theorem truthy_undefined : truthy .undefined = false := rfl

/-! ## C8: key normalization round trip -/

/-- A `set` call whose waterfall result is not `false` and whose `key` field
(if any) is the fixed key stores its entry exactly at the normalized key. -/
theorem set_assets_objSet_fixKey
    (opts : Options) (taps : List CustomizeTap) (st : ManifestState)
    (key : String) (value : JsValue)
    (hmode : ¬(st.isMerging ∧ opts.merge ≠ MergeMode.customize))
    (hnf : waterfall taps (initialEntry opts key value) (originalEntry key value)
            ≠ .bool false)
    (hkeyfield :
      fieldForDestructuring
          (entryFields (waterfall taps (initialEntry opts key value) (originalEntry key value)))
          "key" = none ∨
      fieldForDestructuring
          (entryFields (waterfall taps (initialEntry opts key value) (originalEntry key value)))
          "key" = some (.str (fixKey key))) :
    ∃ w, (set opts taps st key value).1.assets = objSet st.assets (fixKey key) w := by
  unfold set
  rw [if_neg hmode]
  generalize hw : waterfall taps (initialEntry opts key value) (originalEntry key value) = e
  rw [hw] at hnf hkeyfield
  cases e with
  | bool b =>
    cases b with
    | false => exact absurd rfl hnf
    | true => exact ⟨computedValue opts value, by simp [isKeyValuePair, setRaw]⟩
  | null => exact ⟨computedValue opts value, by simp [isKeyValuePair, setRaw]⟩
  | undefined => exact ⟨computedValue opts value, by simp [isKeyValuePair, setRaw]⟩
  | num n => exact ⟨computedValue opts value, by simp [isKeyValuePair, setRaw]⟩
  | str s => exact ⟨computedValue opts value, by simp [isKeyValuePair, setRaw]⟩
  | arr xs => exact ⟨computedValue opts value, by simp [isKeyValuePair, setRaw]⟩
  | obj fs =>
    by_cases hkv : isKeyValuePair (.obj fs) = true
    · simp only [entryFields] at hkeyfield
      rcases hkeyfield with hkf | hkf
      · simp only [hkv, if_true, setRaw, entryFields, hkf]
        exact ⟨_, rfl⟩
      · simp only [hkv, if_true, setRaw, entryFields, hkf, jsToPropKey]
        exact ⟨_, rfl⟩
    · have hkv' : isKeyValuePair (.obj fs) = false := by simpa using hkv
      exact ⟨computedValue opts value, by simp [hkv', setRaw]⟩

/-- C8: after a single `set(key, value)` on a store containing neither the
literal key nor its normalized form, with the waterfall neither dropping the
entry nor overriding the key, `has` answers true for both the raw key and
its normalized form, `get` answers identically for both query forms, and
`delete` with either query form reports a removal and removes the stored
(normalized-key) entry. -/
theorem set_key_normalization_roundtrip
    (opts : Options) (taps : List CustomizeTap) (st : ManifestState)
    (key : String) (value d : JsValue)
    (hmode : ¬(st.isMerging ∧ opts.merge ≠ MergeMode.customize))
    (hnf : waterfall taps (initialEntry opts key value) (originalEntry key value)
            ≠ .bool false)
    (hkeyfield :
      fieldForDestructuring
          (entryFields (waterfall taps (initialEntry opts key value) (originalEntry key value)))
          "key" = none ∨
      fieldForDestructuring
          (entryFields (waterfall taps (initialEntry opts key value) (originalEntry key value)))
          "key" = some (.str (fixKey key)))
    (hfresh : hasOwnKey st.assets key = false)
    (hfreshn : hasOwnKey st.assets (fixKey key) = false) :
    has (set opts taps st key value).1 key = true ∧
    has (set opts taps st key value).1 (fixKey key) = true ∧
    get (set opts taps st key value).1 key d
      = get (set opts taps st key value).1 (fixKey key) d ∧
    (delete (set opts taps st key value).1 key).1 = true ∧
    (delete (set opts taps st key value).1 (fixKey key)).1 = true ∧
    (delete (set opts taps st key value).1 key).2.assets
      = objDelete (set opts taps st key value).1.assets (fixKey key) ∧
    (delete (set opts taps st key value).1 (fixKey key)).2.assets
      = objDelete (set opts taps st key value).1.assets (fixKey key) := by
  obtain ⟨w, hw⟩ := set_assets_objSet_fixKey opts taps st key value hmode hnf hkeyfield
  have hself : hasOwnKey (objSet st.assets (fixKey key) w) (fixKey key) = true :=
    hasOwnKey_objSet_self _ _ _
  have hGfix : objGet (objSet st.assets (fixKey key) w) (fixKey key) = some w :=
    objGet_objSet_self _ _ _
  refine ⟨?_, ?_, ?_, ?_, ?_, ?_, ?_⟩
  · unfold has
    rw [hw, hself]
    simp
  · unfold has
    rw [hw, hself]
    simp
  · by_cases hk : key = fixKey key
    · rw [← hk]
    · unfold get
      rw [hw, fixKey_idem key, hGfix]
      have hGk : objGet (objSet st.assets (fixKey key) w) key = none := by
        rw [objGet_objSet_of_ne _ _ _ _ hk]
        exact objGet_eq_none_of_hasOwnKey_false _ _ hfresh
      rw [hGk]
      simp only [Option.getD_none, Option.getD_some, truthy_undefined,
        Bool.false_eq_true, if_false]
      by_cases ht : truthy w = true
      · simp [ht]
      · simp [ht]
  · unfold delete
    rw [hw]
    by_cases hk : key = fixKey key
    · rw [show hasOwnKey (objSet st.assets (fixKey key) w) key = true from by
        rw [hk, fixKey_idem key]; exact hself]
      simp
    · rw [show hasOwnKey (objSet st.assets (fixKey key) w) key = false from by
        rw [hasOwnKey_objSet_of_ne _ _ _ _ hk]; exact hfresh]
      simp [hself]
  · unfold delete
    rw [hw, hself]
    simp
  · unfold delete
    rw [hw]
    by_cases hk : key = fixKey key
    · rw [show hasOwnKey (objSet st.assets (fixKey key) w) key = true from by
        rw [hk, fixKey_idem key]; exact hself]
      simp only [if_true]
      rw [← hk]
    · rw [show hasOwnKey (objSet st.assets (fixKey key) w) key = false from by
        rw [hasOwnKey_objSet_of_ne _ _ _ _ hk]; exact hfresh]
      simp [hself]
  · unfold delete
    rw [hw, hself]
    simp

/-- Witness for C8 at a concrete input: `set("img\\logo.png", ...)` with no
hooks, then querying with the raw and the normalized key. -/
theorem set_key_normalization_roundtrip_witness :
    hasOwnKey freshState.assets "img\\logo.png" = false ∧
    has (set defaultOptions [] freshState "img\\logo.png" (.str "logo.123.png")).1
      "img\\logo.png" = true ∧
    has (set defaultOptions [] freshState "img\\logo.png" (.str "logo.123.png")).1
      "img/logo.png" = true :=
  ⟨rfl,
    (set_key_normalization_roundtrip defaultOptions [] freshState
      "img\\logo.png" (.str "logo.123.png") .undefined (by decide)
      (fun h => JsValue.noConfusion h) (Or.inr rfl) rfl rfl).1,
    (set_key_normalization_roundtrip defaultOptions [] freshState
      "img\\logo.png" (.str "logo.123.png") .undefined (by decide)
      (fun h => JsValue.noConfusion h) (Or.inr rfl) rfl rfl).2.1⟩

/-! ## C10: get on falsy stored values -/

/-- Store for the C10 counterexample: the literal key `"a\\b"` holds the
falsy value `""`, while its normalized form `"a/b"` holds a truthy value. -/
def falsyState : ManifestState :=
  { assets := [("a\\b", .str ""), ("a/b", .str "x.js")]
    isMerging := false
    currentAsset := none }

/-- C10 counterexample: `"a\\b"` is present with the falsy stored value `""`
and `has` answers true, yet `get("a\\b", "default")` returns the truthy
value found under the normalized key `"a/b"` — not the default — because the
truthiness chain falls through to the normalized-key lookup first.  This
refutes the claim that `get` returns the default for *every* key whose
stored value is falsy. -/
theorem get_falsy_counterexample :
    hasOwnKey falsyState.assets "a\\b" = true ∧
    objGet falsyState.assets "a\\b" = some (.str "") ∧
    truthy (.str "") = false ∧
    has falsyState "a\\b" = true ∧
    get falsyState "a\\b" (.str "default") = .str "x.js" ∧
    JsValue.str "x.js" ≠ JsValue.str "default" := by
  refine ⟨rfl, rfl, rfl, rfl, rfl, ?_⟩
  intro h
  injection h with h'
  exact absurd h' (by decide)

/-- C10 amended: for a key present in the store with a falsy stored value,
`get(key, default)` returns the default — provided the normalized form of
the key does not itself hold a truthy value (in particular, for every
already-normalized key) — even though `has(key)` is true. -/
theorem get_falsy_returns_default
    (st : ManifestState) (key : String) (d : JsValue)
    (hown : hasOwnKey st.assets key = true)
    (hfalsy : truthy ((objGet st.assets key).getD .undefined) = false)
    (hnorm : truthy ((objGet st.assets (fixKey key)).getD .undefined) = false) :
    get st key d = d ∧ has st key = true := by
  constructor
  · simp only [get, hfalsy, hnorm, Bool.false_eq_true, if_false]
  · simp [has, hown]

/-- Witness for the amended C10: an already-normalized key holding `""`. -/
theorem get_falsy_returns_default_witness :
    hasOwnKey [("main.js", JsValue.str "")] "main.js" = true ∧
    get { assets := [("main.js", JsValue.str "")], isMerging := false, currentAsset := none }
        "main.js" (.str "fallback.js") = .str "fallback.js" :=
  ⟨rfl,
    (get_falsy_returns_default
      { assets := [("main.js", JsValue.str "")], isMerging := false, currentAsset := none }
      "main.js" (.str "fallback.js") rfl rfl rfl).1⟩

/-! ## The merge engine (`maybeMerge`) -/

/-- `isMergeableObject` (default of the `deepmerge` package): a non-null
object, including arrays.  (Special instances — `Date`, `RegExp`, React
elements — do not occur in JSON-parsed manifest data and are not modelled.) -/
def isMergeable : JsValue → Bool
  | .obj _ => true
  | .arr _ => true
  | _ => false

/-- `getKeys`/enumeration of own enumerable fields, as used by `deepmerge`'s
`mergeObject`.  Only plain objects carry fields in the data `deepmerge`
receives here (its argument is always `isObject`, and recursion is guarded by
`isMergeableObject`). -/
def jsFields : JsValue → List (String × JsValue)
  | .obj fs => fs
  | _ => []

theorem sizeOf_jsFields_le (v : JsValue) : sizeOf (jsFields v) ≤ sizeOf v := by
  cases v <;> simp [jsFields]

/-- The `deepmerge` package (as called by `maybeMerge` with
`arrayMerge: (destinationArray, sourceArray) => sourceArray`):
when source and target differ in arrayness the (cloned) source wins; two
arrays are combined by `arrayMerge`, i.e. the source array wins; otherwise
`mergeObject` starts from the target's (cloned) fields and folds in the
source's keys — a key also present on the target whose source value is
mergeable is merged recursively, any other key takes the (cloned) source
value.  `propertyIsUnsafe` and the prototype chain are not modelled
(association lists have no prototypes). -/
def deepmerge (target source : JsValue) : JsValue :=
  if isArray source then source
  else if isArray target then source
  else
    match source with
    | .obj fs =>
      .obj (fs.attach.foldl (fun dest x =>
        if hasOwnKey (jsFields target) x.1.1 && isMergeable x.1.2 then
          objSet dest x.1.1
            (deepmerge ((objGet (jsFields target) x.1.1).getD .undefined) x.1.2)
        else objSet dest x.1.1 x.1.2)
        (if isMergeable target then jsFields target else []))
    | _ => .obj (if isMergeable target then jsFields target else [])
termination_by sizeOf source
decreasing_by
  obtain ⟨⟨a, b⟩, hx⟩ := x
  have h1 := List.sizeOf_lt_of_mem hx
  simp only [Prod.mk.sizeOf_spec] at h1
  simp only [JsValue.obj.sizeOf_spec]
  omega

/-- `Object.entries(data)`: fields of an object, indexed elements of an
array or a string, nothing for other primitives, a `TypeError` for `null`
and `undefined`. -/
def jsEntries : JsValue → Except String (List (String × JsValue))
  | .obj fs => .ok fs
  | .arr xs => .ok (xs.enum.map (fun p => (toString p.1, p.2)))
  | .str s => .ok (s.data.enum.map (fun p => (toString p.1, .str ⟨[p.2]⟩)))
  | .num _ => .ok []
  | .bool _ => .ok []
  | .null => .error "TypeError: Cannot convert undefined or null to object"
  | .undefined => .error "TypeError: Cannot convert undefined or null to object"

/-- The body of `maybeMerge`'s `for (const [key, oldValue] of
Object.entries(data))` loop. -/
def mergeEntry (opts : Options) (taps : List CustomizeTap)
    (st : ManifestState) (kv : String × JsValue) : ManifestState :=
  if has st kv.1 then
    let currentValue := get st kv.1 .undefined
    if isObject kv.2 && isObject currentValue then
      (set opts taps st kv.1 (deepmerge kv.2 currentValue)).1
    else st
  else (set opts taps st kv.1 kv.2).1

/-- `maybeMerge()` from `src/plugin.ts`.  The `readFile` outcome is the
`readResult` argument; the host `JSON.parse` is the `parseJson` argument
(JSON parsing is an external primitive).  The result pairs the final state
with the propagated error, if any: the `try`/`finally` resets `#isMerging`
on every path and has no `catch`, so read and parse failures propagate. -/
def maybeMerge (opts : Options) (taps : List CustomizeTap) (st : ManifestState)
    (readResult : Except String String)
    (parseJson : String → Except String JsValue) : ManifestState × Option String :=
  if opts.merge = MergeMode.off then (st, none)
  else
    let st1 := { st with isMerging := true }
    match readResult with
    | .error e => ({ st1 with isMerging := false }, some e)
    | .ok content =>
      match parseJson content with
      | .error e => ({ st1 with isMerging := false }, some e)
      | .ok data =>
        match jsEntries data with
        | .error e => ({ st1 with isMerging := false }, some e)
        | .ok entries =>
          ({ entries.foldl (mergeEntry opts taps) st1 with isMerging := false }, none)


/-! ## C2: merge read/parse failures propagate; the merging flag resets -/

/-- C2: with merge enabled, a failure to read the existing manifest file
(including the file being absent) or to JSON-parse it propagates out of the
merge step as that very error — it is never swallowed — and in all cases
(success or failure) the merging flag is false after the merge step. -/
theorem maybeMerge_propagates_and_resets
    (opts : Options) (taps : List CustomizeTap) (st : ManifestState)
    (readResult : Except String String) (parseJson : String → Except String JsValue)
    (hmerge : opts.merge ≠ MergeMode.off) :
    (maybeMerge opts taps st readResult parseJson).1.isMerging = false ∧
    (∀ e, readResult = .error e →
        maybeMerge opts taps st readResult parseJson
          = ({ st with isMerging := false }, some e)) ∧
    (∀ c e, readResult = .ok c → parseJson c = .error e →
        maybeMerge opts taps st readResult parseJson
          = ({ st with isMerging := false }, some e)) := by
  refine ⟨?_, ?_, ?_⟩
  · unfold maybeMerge
    rw [if_neg hmerge]
    cases readResult with
    | error e => rfl
    | ok c =>
      cases hp : parseJson c with
      | error e => simp [hp]
      | ok data =>
        cases he : jsEntries data with
        | error e => simp [hp, he]
        | ok entries => simp [hp, he]
  · intro e he
    subst he
    unfold maybeMerge
    rw [if_neg hmerge]
  · intro c e hc hp
    subst hc
    unfold maybeMerge
    rw [if_neg hmerge]
    simp [hp]

/-- Options with `merge: true`. -/
def mergeOnOptions : Options := { defaultOptions with merge := .on }

/-- Witness for C2 at concrete inputs: a missing file (`ENOENT`) and a
parse failure both surface with the flag reset. -/
theorem maybeMerge_propagates_and_resets_witness :
    mergeOnOptions.merge ≠ MergeMode.off ∧
    maybeMerge mergeOnOptions [] freshState
        (.error "ENOENT: no such file or directory") (fun _ => .ok (.obj []))
      = ({ freshState with isMerging := false }, some "ENOENT: no such file or directory") ∧
    maybeMerge mergeOnOptions [] freshState (.ok "not-json")
        (fun _ => .error "SyntaxError: Unexpected token")
      = ({ freshState with isMerging := false }, some "SyntaxError: Unexpected token") :=
  ⟨by decide,
    (maybeMerge_propagates_and_resets mergeOnOptions [] freshState
      (.error "ENOENT: no such file or directory") (fun _ => .ok (.obj []))
      (by decide)).2.1 _ rfl,
    (maybeMerge_propagates_and_resets mergeOnOptions [] freshState
      (.ok "not-json") (fun _ => .error "SyntaxError: Unexpected token")
      (by decide)).2.2 _ _ rfl rfl⟩

/-! ## C6: merge replaces arrays wholesale -/

/-- Store state for C6: the fresh build produced `{"entry.js": {a: [3]}}`. -/
def mergeStoreState : ManifestState :=
  { assets := [("entry.js", .obj [("a", .arr [.num 3])])]
    isMerging := false
    currentAsset := none }

/-- Parse outcome for C6: the on-disk manifest is
`{"entry.js": {"a": [1, 2]}}`. -/
def mergeDiskParse : String → Except String JsValue :=
  fun _ => .ok (.obj [("entry.js", .obj [("a", .arr [.num 1, .num 2])])])

/-- C6: when a key exists both on disk and in the store and both values are
non-scalar objects, the deep merge replaces arrays wholesale with the new
build's array: for old `{a: [1,2]}` and new `{a: [3]}` the merged value at
`a` is `[3]` — not the concatenation and not the old array — both at the
`deepmerge` level and through a full `maybeMerge` run; in general a source
(new-value) array always replaces whatever the old value held. -/
theorem merge_array_replace :
    deepmerge (.obj [("a", .arr [.num 1, .num 2])]) (.obj [("a", .arr [.num 3])])
      = .obj [("a", .arr [.num 3])] ∧
    (maybeMerge mergeOnOptions [] mergeStoreState (.ok "<disk>") mergeDiskParse).1.assets
      = [("entry.js", .obj [("a", .arr [.num 3])])] ∧
    JsValue.obj [("a", .arr [.num 3])] ≠ .obj [("a", .arr [.num 1, .num 2, .num 3])] ∧
    JsValue.obj [("a", .arr [.num 3])] ≠ .obj [("a", .arr [.num 1, .num 2])] ∧
    (∀ target ys, deepmerge target (.arr ys) = .arr ys) := by
  have harr : ∀ target ys, deepmerge target (.arr ys) = .arr ys := by
    intro t ys
    unfold deepmerge
    simp [isArray]
  have h1 : deepmerge (.obj [("a", .arr [.num 1, .num 2])]) (.obj [("a", .arr [.num 3])])
      = .obj [("a", .arr [.num 3])] := by
    unfold deepmerge
    simp +decide [isArray, List.attach, List.attachWith, List.pmap, List.foldl_cons,
      List.foldl_nil, isMergeable, jsFields, hasOwnKey, objGet, objSet, harr]
  refine ⟨h1, ?_, by simp, by simp, harr⟩
  unfold maybeMerge
  rw [if_neg (by decide)]
  simp only [mergeDiskParse, jsEntries]
  rw [List.foldl_cons, List.foldl_nil]
  unfold mergeEntry
  rw [if_pos (by decide)]
  rw [if_pos (by decide)]
  have hget : get { mergeStoreState with isMerging := true } "entry.js" .undefined
      = .obj [("a", .arr [.num 3])] := rfl
  rw [hget, h1]
  unfold set
  rw [if_pos (by decide)]
  rfl


/-! ## C1: lock handling in `emitAssetsManifest` -/

/-- State for the emit step: the manifest instance state, whether the
cross-process lock for the output path is currently held by this instance,
and whether the manifest asset has been emitted into the compilation. -/
structure EmitState where
  ms : ManifestState
  lockHeld : Bool
  emitted : Bool

/-- `emitAssetsManifest(compilation)` from `src/plugin.ts`, as a sequence of
steps on `EmitState`:

```
if (this.options.merge) { await lock(outputPath); }
await this.maybeMerge();
compilation.emitAsset(...);
if (this.options.merge) { await unlock(outputPath); }
```

`lock` is modelled as setting `lockHeld` (a successful acquisition; failures
of the lock primitive itself are outside this claim), `emitAsset` as setting
`emitted`.  The source wraps none of this in `try`/`finally`, so when
`maybeMerge` rejects, the statements after it — including the `unlock` — are
skipped and the error propagates, exactly as modelled here. -/
def emitAssetsManifest (opts : Options) (taps : List CustomizeTap) (es : EmitState)
    (readResult : Except String String)
    (parseJson : String → Except String JsValue) : EmitState × Option String :=
  let es1 := if opts.merge ≠ MergeMode.off then { es with lockHeld := true } else es
  match maybeMerge opts taps es1.ms readResult parseJson with
  | (ms, some e) => ({ es1 with ms := ms }, some e)
  | (ms, none) =>
    let es2 := { es1 with ms := ms, emitted := true }
    let es3 := if opts.merge ≠ MergeMode.off then { es2 with lockHeld := false } else es2
    (es3, none)

/-- Start state for the C1 counterexample. -/
def emitStart : EmitState := { ms := freshState, lockHeld := false, emitted := false }

/-- C1 counterexample: with merge enabled and the read of the existing
manifest failing (`ENOENT`), the emit step propagates the error while the
lock acquired for the output path is STILL HELD — the `unlock` statement is
never reached, because `emitAssetsManifest` has no `try`/`finally`.  This
refutes the claim that the lock is released on every exit path before the
error propagates. -/
theorem emit_lock_leak_counterexample :
    (emitAssetsManifest mergeOnOptions [] emitStart
        (.error "ENOENT: no such file or directory") (fun _ => .ok (.obj []))).2
      = some "ENOENT: no such file or directory" ∧
    (emitAssetsManifest mergeOnOptions [] emitStart
        (.error "ENOENT: no such file or directory") (fun _ => .ok (.obj []))).1.lockHeld
      = true ∧
    (emitAssetsManifest mergeOnOptions [] emitStart
        (.error "ENOENT: no such file or directory") (fun _ => .ok (.obj []))).1.emitted
      = false :=
  ⟨rfl, rfl, rfl⟩

/-- C1 amended: with merge enabled, the lock is released only on the
non-throwing path: when the merge step succeeds the lock is released after
the manifest asset is emitted, but when reading or parsing the existing
manifest throws, the error propagates with the lock still held (left to the
lock primitive's staleness timeout). -/
theorem emit_lock_release_paths
    (opts : Options) (taps : List CustomizeTap) (es : EmitState)
    (readResult : Except String String) (parseJson : String → Except String JsValue)
    (hmerge : opts.merge ≠ MergeMode.off) :
    ((emitAssetsManifest opts taps es readResult parseJson).2 = none →
      (emitAssetsManifest opts taps es readResult parseJson).1.lockHeld = false ∧
      (emitAssetsManifest opts taps es readResult parseJson).1.emitted = true) ∧
    (∀ e, (emitAssetsManifest opts taps es readResult parseJson).2 = some e →
      (emitAssetsManifest opts taps es readResult parseJson).1.lockHeld = true ∧
      (emitAssetsManifest opts taps es readResult parseJson).1.emitted = es.emitted) := by
  cases hm : maybeMerge opts taps es.ms readResult parseJson with
  | mk ms err =>
    cases err with
    | some e =>
      have heq : emitAssetsManifest opts taps es readResult parseJson
          = ({ ms := ms, lockHeld := true, emitted := es.emitted }, some e) := by
        unfold emitAssetsManifest
        rw [if_pos hmerge]
        simp only [hm]
      rw [heq]
      exact ⟨fun h => (nomatch h), fun e' he' => ⟨rfl, rfl⟩⟩
    | none =>
      have heq : emitAssetsManifest opts taps es readResult parseJson
          = ({ ms := ms, lockHeld := false, emitted := true }, none) := by
        unfold emitAssetsManifest
        rw [if_pos hmerge]
        simp only [hm]
        rw [if_pos hmerge]
      rw [heq]
      exact ⟨fun _ => ⟨rfl, rfl⟩, fun e' he' => (nomatch he')⟩

/-- Witness for the amended C1: on a successful merge the lock is released
and the asset emitted; on a read failure the error propagates. -/
theorem emit_lock_release_paths_witness :
    mergeOnOptions.merge ≠ MergeMode.off ∧
    (emitAssetsManifest mergeOnOptions [] emitStart (.ok "{}")
        (fun _ => .ok (.obj []))).2 = none ∧
    (emitAssetsManifest mergeOnOptions [] emitStart (.ok "{}")
        (fun _ => .ok (.obj []))).1.lockHeld = false ∧
    (emitAssetsManifest mergeOnOptions [] emitStart (.ok "{}")
        (fun _ => .ok (.obj []))).1.emitted = true :=
  ⟨by decide, rfl,
    ((emit_lock_release_paths mergeOnOptions [] emitStart (.ok "{}")
      (fun _ => .ok (.obj [])) (by decide)).1 rfl).1,
    ((emit_lock_release_paths mergeOnOptions [] emitStart (.ok "{}")
      (fun _ => .ok (.obj [])) (by decide)).1 rfl).2⟩

/-! ## C9: extension detection ignores query strings and fragments -/

/-- A filename containing no `?` and no `#`. -/
def noQueryFragment (f : String) : Prop := ∀ c ∈ f.data, c ≠ '?' ∧ c ≠ '#'

/-- Well-formedness of an extension configuration: on the empty input a
regular expression can only match the empty string (a regex match is a
substring of the input), and the `path.extname` fallback needs nothing. -/
def ExtCfg.wellFormedOnEmpty : ExtCfg → Prop
  | .regex m => m "" = none ∨ m "" = some ""
  | .extname => True

instance (f : String) : Decidable (noQueryFragment f) :=
  inferInstanceAs (Decidable (∀ c ∈ f.data, c ≠ '?' ∧ c ≠ '#'))

instance : (cfg : ExtCfg) → Decidable cfg.wellFormedOnEmpty
  | .regex m => inferInstanceAs (Decidable (m "" = none ∨ m "" = some ""))
  | .extname => inferInstanceAs (Decidable True)

theorem takeWhile_append_all {p : Char → Bool} (l1 l2 : List Char)
    (h : ∀ c ∈ l1, p c = true) :
    (l1 ++ l2).takeWhile p = l1 ++ l2.takeWhile p := by
  induction l1 with
  | nil => simp
  | cons c rest ih =>
    have hc : p c = true := h c (by simp)
    simp only [List.cons_append, List.takeWhile_cons, hc, if_true]
    rw [ih (fun c hc2 => h c (by simp [hc2]))]

theorem stringMk_data (s : String) : String.mk s.data = s := by
  cases s
  rfl

theorem stripQueryFragment_of_noQF (f : String) (hf : noQueryFragment f) :
    stripQueryFragment f = f := by
  unfold stripQueryFragment
  rw [List.takeWhile_eq_self_iff.mpr ?_, stringMk_data]
  intro c hc
  obtain ⟨h1, h2⟩ := hf c hc
  simp [h1, h2]

theorem stripQueryFragment_append_query (f : String) (hf : noQueryFragment f) :
    stripQueryFragment (f ++ "?x=1#y") = f := by
  have hp : ∀ c ∈ f.data, (c != '?' && c != '#') = true := by
    intro c hc
    obtain ⟨h1, h2⟩ := hf c hc
    simp [h1, h2]
  unfold stripQueryFragment
  rw [String.data_append, takeWhile_append_all f.data _ hp]
  have hq : ("?x=1#y".data.takeWhile (fun c => c != '?' && c != '#')) = [] := rfl
  rw [hq, List.append_nil, stringMk_data]

/-- C9: for every filename `f` containing no `?` and no `#`, appending a
query string and fragment does not change the detected extension —
`getExtension (f ++ "?x=1#y") = getExtension f` — under any `fileExtRegex`
configuration (a regex, or the `path.extname` fallback when disabled). -/
theorem getExtension_ignores_query_fragment
    (cfg : ExtCfg) (f : String) (hwf : cfg.wellFormedOnEmpty)
    (hf : noQueryFragment f) :
    getExtension cfg (f ++ "?x=1#y") = getExtension cfg f := by
  have hne : f ++ "?x=1#y" ≠ "" := by
    intro h
    have h2 := congrArg String.data h
    rw [String.data_append] at h2
    simp at h2
  by_cases hempty : f = ""
  · subst hempty
    have hstrip : stripQueryFragment ("" ++ "?x=1#y") = "" :=
      stripQueryFragment_append_query "" (by decide)
    unfold getExtension
    simp only [hne, if_false, if_pos rfl, hstrip]
    cases cfg with
    | regex m =>
      rcases hwf with h | h <;> simp [h]
    | extname => rfl
  · unfold getExtension
    simp only [hne, hempty, if_false,
      stripQueryFragment_append_query f hf, stripQueryFragment_of_noQF f hf]

/-- Witness for C9 at a concrete input, with the plugin's default regex. -/
theorem getExtension_ignores_query_fragment_witness :
    ExtCfg.wellFormedOnEmpty (.regex defaultFileExtMatch) ∧
    noQueryFragment "main.js" ∧
    getExtension (.regex defaultFileExtMatch) ("main.js" ++ "?x=1#y")
      = getExtension (.regex defaultFileExtMatch) "main.js" ∧
    getExtension (.regex defaultFileExtMatch) "main.js" = ".js" :=
  ⟨by decide, by decide,
    getExtension_ignores_query_fragment (.regex defaultFileExtMatch) "main.js"
      (by decide) (by decide),
    by decide⟩

/-! ## The asset report pipeline (`handleProcessAssetsReport`) -/

/-- Truthiness of `asset.info.hotModuleReplacement`. -/
def assetHMR (a : CAsset) : Bool :=
  truthy ((objGet a.info "hotModuleReplacement").getD .undefined)

/-- Truthiness of `asset.info.assetsManifest` (the flag the plugin puts on
its own emitted manifest asset). -/
def assetIsManifestFlag (a : CAsset) : Bool :=
  truthy ((objGet a.info "assetsManifest").getD .undefined)

/-- `asset.info.sourceFilename` when truthy.  webpack records it as a string
path; non-string hints are not modelled. -/
def assetSourceFilename (a : CAsset) : Option String :=
  match objGet a.info "sourceFilename" with
  | some (.str s) => if s = "" then none else some s
  | _ => none

/-- `getCompilationAssets(compilation)`: split the compilation's assets into
the reportable ones (neither hot-module-replacement nor the manifest asset
itself) and the set of HMR file names. -/
def getCompilationAssets (cassets : List CAsset) : List CAsset × List String :=
  (cassets.filter (fun a => !assetHMR a && !assetIsManifestFlag a),
   (cassets.filter (fun a => assetHMR a)).map CAsset.name)

/-- `path.dirname` (posix) for ordinary paths. -/
def dirnamePosix (p : String) : String :=
  let l := p.data.reverse.dropWhile (fun c => c == '/')
  let rest := l.dropWhile (fun c => c != '/')
  let rest2 := rest.dropWhile (fun c => c == '/')
  if rest2.isEmpty then (if rest.isEmpty then "." else "/") else ⟨rest2.reverse⟩

/-- `path.join(d, f)` (posix) for a directory and a relative name. -/
def joinPosix (d f : String) : String :=
  if d = "." then f else if d.endsWith "/" then d ++ f else d ++ "/" ++ f

/-- `processStatsAssets(assets)`: record
`join(dirname(asset.name), basename(asset.info.sourceFilename))` (or the
context-relative source filename) for every stats asset carrying a truthy
name and source filename. -/
def processStatsAssets (contextRelativeKeys : Bool)
    (assetNames : List (String × String)) (statsAssets : List CAsset) :
    List (String × String) :=
  statsAssets.foldl (fun an a =>
    match assetSourceFilename a with
    | some sf =>
      if a.name != "" then
        objSet an
          (if contextRelativeKeys then sf
           else joinPosix (dirnamePosix a.name) (basenamePosix sf))
          a.name
      else an
    | none => an) assetNames

/-- `processAssetsByChunkName(assets, hmrFiles)`: for every chunk, record
`chunkName + getExtension(filename) -> filename` for each of the chunk's
files not in `hmrFiles`. -/
def processAssetsByChunkName (cfg : ExtCfg) (assetNames : List (String × String))
    (byChunk : List (String × List String)) (hmrFiles : List String) :
    List (String × String) :=
  byChunk.foldl (fun an chunk =>
    (chunk.2.filter (fun f => !hmrFiles.contains f)).foldl
      (fun an f => objSet an (chunk.1 ++ getExtension cfg f) f) an) assetNames

/-- `findMapKeysByValue` from `src/helpers.ts`: all keys mapping to the
searched value. -/
def findMapKeysByValue (m : List (String × String)) (searchValue : String) :
    List String :=
  (m.filter (fun p => p.2 == searchValue)).map Prod.fst

/-- The fallback manifest key for an asset no discovery source recorded:
its source-filename hint (context-relative or basenamed), or its own name. -/
def fallbackName (opts : Options) (a : CAsset) : String :=
  match assetSourceFilename a with
  | some sf => if opts.contextRelativeKeys then sf else basenamePosix sf
  | none => a.name

/-- One iteration of the report loop `for (const asset of assets)`: find the
recorded original names for the asset (falling back to `fallbackName`), and
`set` each of them to the asset's name with `currentAsset` set around the
call. -/
def reportManifestStep (opts : Options) (taps : List CustomizeTap)
    (assetNames : List (String × String)) (st : ManifestState) (a : CAsset) :
    ManifestState :=
  let sourceFilenames := findMapKeysByValue assetNames a.name
  let keys := if sourceFilenames.isEmpty then [fallbackName opts a] else sourceFilenames
  keys.foldl (fun st key =>
    { (set opts taps { st with currentAsset := some a } key (.str a.name)).1 with
        currentAsset := none }) st

/-- An entry point as the report step consumes it: its name, its files
(`entrypoint.getFiles()`) and the extra child-asset groups
(`stats.namedChunkGroups[name].childAssets`, e.g. preload/prefetch). -/
structure Entrypoint where
  name : String
  files : List String
  childAssets : List (String × List String)

/-- `getExtensionGroup`: the extension without its dot, lowercased. -/
def getExtensionGroup (cfg : ExtCfg) (file : String) : String :=
  ⟨((getExtension cfg file).data.drop 1).map Char.toLower⟩

/-- `getAssetOrFilename(file)`: with `entrypointsUseAssets`, prefer the
already-customized manifest value found via the reverse lookup (`.pop()`
takes the last key) or under the file name; otherwise (and when nothing
truthy is found) the public path of the file. -/
def getAssetOrFilename (opts : Options) (assets : List (String × JsValue))
    (assetNames : List (String × String)) (file : String) : JsValue :=
  if opts.entrypointsUseAssets then
    let av := match (findMapKeysByValue assetNames file).getLast? with
      | some k =>
        if k != "" then
          let a := (objGet assets k).getD .undefined
          if truthy a then a else (objGet assets file).getD .undefined
        else (objGet assets file).getD .undefined
      | none => (objGet assets file).getD .undefined
    if truthy av then av else .str (getPublicPath opts file)
  else .str (getPublicPath opts file)

/-- `group` from `src/helpers.ts`: fold the items into insertion-ordered
groups keyed by `getGroup` (every string, including `""`, is a property
key), pushing `mapper item` into the group's list. -/
def group (data : List String) (getGroup : String → String)
    (mapper : String → JsValue) : List (String × List JsValue) :=
  data.foldl (fun obj item =>
    let g := getGroup item
    match objGet obj g with
    | some xs => objSet obj g (xs ++ [mapper item])
    | none => obj ++ [(g, [mapper item])]) []

/-- Render grouped lists as the JS object they form. -/
def groupToJs (g : List (String × List JsValue)) : JsValue :=
  .obj (g.map (fun p => (p.1, .arr p.2)))

/-- The per-entry-point block: `{ assets: group(files minus HMR, ...) }`
extended with one grouped list per child-asset property (also HMR-filtered). -/
def entrypointValue (opts : Options) (assets : List (String × JsValue))
    (assetNames : List (String × String)) (hmrFiles : List String)
    (ep : Entrypoint) : JsValue :=
  let base := [("assets",
    groupToJs (group (ep.files.filter (fun f => !hmrFiles.contains f))
      (getExtensionGroup opts.fileExtRegex)
      (getAssetOrFilename opts assets assetNames)))]
  .obj (ep.childAssets.foldl (fun v ca =>
    objSet v ca.1
      (groupToJs (group (ca.2.filter (fun f => !hmrFiles.contains f))
        (getExtensionGroup opts.fileExtRegex)
        (getAssetOrFilename opts assets assetNames)))) base)

/-- Object spread `{ ...v }` of a manifest value: the fields of an object,
nothing otherwise.  (Spreading a string manifest value would contribute
index keys; such values do not occur at the entrypoints key.) -/
def spreadFields : JsValue → List (String × JsValue)
  | .obj fs => fs
  | _ => []

/-- The inputs of one report step, as observed from the compilation: the
compilation's assets, the stats assets, the `assetNames` entries already
recorded by the loader-emission and asset-module discovery sources, the
chunk-name-to-files map, and the entry points. -/
structure ReportInput where
  cassets : List CAsset
  statsAssets : List CAsset
  assetNames : List (String × String)
  assetsByChunkName : List (String × List String)
  entrypoints : List Entrypoint

/-- `handleProcessAssetsReport(compilation)` up to the emit call: gather the
(HMR-filtered) assets, record stats-asset and chunk names, write one
manifest entry per discovered original name, then attach the entrypoints
block (`{ ...this.get(entrypointsKey), ...entrypoints }`, or flattened when
`entrypointsKey` is `false`). -/
def handleProcessAssetsReport (opts : Options) (taps : List CustomizeTap)
    (st : ManifestState) (inp : ReportInput) : ManifestState :=
  let ah := getCompilationAssets inp.cassets
  let an1 := processStatsAssets opts.contextRelativeKeys inp.assetNames inp.statsAssets
  let an2 := processAssetsByChunkName opts.fileExtRegex an1 inp.assetsByChunkName ah.2
  let st1 := ah.1.foldl (reportManifestStep opts taps an2) st
  if opts.entrypoints then
    let eps := inp.entrypoints.map (fun ep =>
      (ep.name, entrypointValue opts st1.assets an2 ah.2 ep))
    match opts.entrypointsKey with
    | none => eps.foldl (fun st p => setRaw st p.1 p.2) st1
    | some epk =>
      setRaw st1 epk
        (.obj (eps.foldl (fun fs p => objSet fs p.1 p.2)
          (spreadFields (get st1 epk .undefined))))
  else st1

/-- `getSortedObject` with the default comparator, used by the built-in
`transform` tap when `sortManifest` is on.  Only the entry membership of the
result is relied upon below (the JS default comparator stringifies whole
entries; it reorders but never adds or drops entries). -/
def getSortedObject (assets : List (String × JsValue)) : List (String × JsValue) :=
  assets.mergeSort (fun a b => a.1 ≤ b.1)

/-- `toJSON()`: the built-in transform tap sorts when `sortManifest` is set. -/
def toJSON (opts : Options) (assets : List (String × JsValue)) :
    List (String × JsValue) :=
  if opts.sortManifest then getSortedObject assets else assets

/-- All string leaves occurring anywhere inside a JS value. -/
def strLeaves : JsValue → List String
  | .str s => [s]
  | .arr xs => (xs.attach.map (fun x => strLeaves x.1)).flatten
  | .obj fs => (fs.attach.map (fun x => strLeaves x.1.2)).flatten
  | _ => []
termination_by v => sizeOf v
decreasing_by
  · have := List.sizeOf_lt_of_mem x.2
    simp only [JsValue.arr.sizeOf_spec]
    omega
  · have h1 := List.sizeOf_lt_of_mem x.2
    have h2 : sizeOf x.1.2 < sizeOf x.1 := by
      obtain ⟨⟨a, b⟩, hx⟩ := x
      simp only [Prod.mk.sizeOf_spec]
      omega
    simp only [JsValue.obj.sizeOf_spec]
    omega

/-! ## Lemmas for C3 -/

theorem mem_objSet {α : Type} {l : List (String × α)} {k : String} {v : α}
    {p : String × α} (hp : p ∈ objSet l k v) : p = (k, v) ∨ p ∈ l := by
  induction l with
  | nil =>
    simp only [objSet, List.mem_singleton] at hp
    exact Or.inl hp
  | cons q rest ih =>
    by_cases hq : (q.1 == k) = true
    · rw [objSet, if_pos hq] at hp
      rcases List.mem_cons.mp hp with h | h
      · exact Or.inl h
      · exact Or.inr (List.mem_cons_of_mem q h)
    · rw [objSet, if_neg hq] at hp
      rcases List.mem_cons.mp hp with h | h
      · exact Or.inr (h ▸ List.mem_cons_self q rest)
      · rcases ih h with h2 | h2
        · exact Or.inl h2
        · exact Or.inr (List.mem_cons_of_mem q h2)

theorem objGet_mem {α : Type} {l : List (String × α)} {k : String} {v : α}
    (h : objGet l k = some v) : (k, v) ∈ l := by
  unfold objGet at h
  cases hf : l.find? (fun p => p.1 == k) with
  | none => rw [hf] at h; cases h
  | some q =>
    rw [hf] at h
    have hq := List.find?_some hf
    have hmem := List.mem_of_find?_eq_some hf
    simp only [Option.map_some', Option.some.injEq] at h
    have hk : q.1 = k := by simpa using hq
    have : q = (k, v) := by
      obtain ⟨q1, q2⟩ := q
      simp only at hk h
      rw [hk, h]
    exact this ▸ hmem

theorem strLeaves_str (s : String) : strLeaves (.str s) = [s] := by
  rw [strLeaves]

theorem strLeaves_obj (fs : List (String × JsValue)) :
    strLeaves (.obj fs) = (fs.map (fun p => strLeaves p.2)).flatten := by
  rw [strLeaves]
  congr 1
  exact List.attach_map_coe fs (fun p => strLeaves p.2)

theorem strLeaves_arr (xs : List JsValue) :
    strLeaves (.arr xs) = (xs.map strLeaves).flatten := by
  rw [strLeaves]
  congr 1
  exact List.attach_map_coe xs strLeaves

theorem mem_toJSON {opts : Options} {l : List (String × JsValue)}
    {p : String × JsValue} : p ∈ toJSON opts l ↔ p ∈ l := by
  unfold toJSON getSortedObject
  by_cases h : opts.sortManifest = true
  · rw [if_pos h]
    exact (List.mergeSort_perm l _).mem_iff
  · rw [if_neg h]

theorem mem_processStatsAssets {crt : Bool} {an : List (String × String)}
    {sa : List CAsset} {p : String × String}
    (hp : p ∈ processStatsAssets crt an sa) :
    p ∈ an ∨ ∃ a ∈ sa, ∃ sf, assetSourceFilename a = some sf ∧
      p.1 = (if crt then sf else joinPosix (dirnamePosix a.name) (basenamePosix sf)) := by
  induction sa generalizing an with
  | nil => exact Or.inl hp
  | cons a rest ih =>
    rw [processStatsAssets, List.foldl_cons] at hp
    rw [← processStatsAssets] at hp
    rcases ih hp with h | h
    · split at h
      · rename_i sf hsf
        split at h
        · rcases mem_objSet h with h2 | h2
          · exact Or.inr ⟨a, List.mem_cons_self a rest, sf, hsf, by rw [h2]⟩
          · exact Or.inl h2
        · exact Or.inl h
      · exact Or.inl h
    · obtain ⟨b, hb, sf, hsf, hkey⟩ := h
      exact Or.inr ⟨b, List.mem_cons_of_mem a hb, sf, hsf, hkey⟩

theorem mem_foldl_objSet_files {g : String → String} {files : List String}
    {an : List (String × String)} {p : String × String}
    (hp : p ∈ files.foldl (fun an f => objSet an (g f) f) an) :
    p ∈ an ∨ ∃ f ∈ files, p = (g f, f) := by
  induction files generalizing an with
  | nil => exact Or.inl hp
  | cons f rest ih =>
    rw [List.foldl_cons] at hp
    rcases ih hp with h | h
    · rcases mem_objSet h with h2 | h2
      · exact Or.inr ⟨f, List.mem_cons_self f rest, h2⟩
      · exact Or.inl h2
    · obtain ⟨f2, hf2, hpf⟩ := h
      exact Or.inr ⟨f2, List.mem_cons_of_mem f hf2, hpf⟩

theorem mem_processAssetsByChunkName {cfg : ExtCfg} {an : List (String × String)}
    {byChunk : List (String × List String)} {hmrFiles : List String}
    {p : String × String}
    (hp : p ∈ processAssetsByChunkName cfg an byChunk hmrFiles) :
    p ∈ an ∨ ∃ c ∈ byChunk, ∃ f ∈ c.2,
      ¬ hmrFiles.contains f ∧ p = (c.1 ++ getExtension cfg f, f) := by
  induction byChunk generalizing an with
  | nil => exact Or.inl hp
  | cons c rest ih =>
    rw [processAssetsByChunkName, List.foldl_cons] at hp
    rw [← processAssetsByChunkName] at hp
    rcases ih hp with h | h
    · rcases mem_foldl_objSet_files h with h2 | h2
      · exact Or.inl h2
      · obtain ⟨f, hf, hpf⟩ := h2
        have hf2 := List.mem_filter.mp hf
        refine Or.inr ⟨c, List.mem_cons_self c rest, f, hf2.1, ?_, hpf⟩
        simpa using hf2.2
    · obtain ⟨c2, hc2, f, hf, hnf, hpf⟩ := h
      exact Or.inr ⟨c2, List.mem_cons_of_mem c hc2, f, hf, hnf, hpf⟩

theorem mem_findMapKeysByValue {m : List (String × String)} {v k : String}
    (hk : k ∈ findMapKeysByValue m v) : (k, v) ∈ m := by
  unfold findMapKeysByValue at hk
  obtain ⟨p, hp, hpk⟩ := List.mem_map.mp hk
  have hf := List.mem_filter.mp hp
  have hv : p.2 = v := by simpa using hf.2
  obtain ⟨p1, p2⟩ := p
  simp only at hpk hv
  rw [← hpk, ← hv]
  exact hf.1

/-- With no customize taps, no public-path rewriting, and integrity off, a
non-merging `set(key, value)` for a string value stores exactly
`(fixKey key, value)`. -/
theorem set_no_hooks (opts : Options) (st : ManifestState) (key s : String)
    (hpp : opts.publicPath = none) (hint : opts.integrity = false)
    (hm : st.isMerging = false) :
    (set opts [] st key (.str s)).1
      = { st with assets := objSet st.assets (fixKey key) (.str s) } := by
  have hmode : ¬(st.isMerging ∧ opts.merge ≠ MergeMode.customize) := by
    rw [hm]
    simp
  unfold set
  rw [if_neg hmode]
  simp [waterfall, initialEntry, originalEntry, computedValue, getPublicPath, hpp,
    isKeyValuePair, hasOwnKey, entryFields, fieldForDestructuring, objGet,
    jsToPropKey, jsStrictEqModel, hint, setRaw]

/-- The effect of one inner iteration of the report loop on the state. -/
theorem reportSetStep_eq (opts : Options) (st : ManifestState) (a : CAsset)
    (key : String) (hpp : opts.publicPath = none) (hint : opts.integrity = false)
    (hm : st.isMerging = false) :
    ({ (set opts [] { st with currentAsset := some a } key (.str a.name)).1 with
        currentAsset := none } : ManifestState)
      = { st with assets := objSet st.assets (fixKey key) (.str a.name),
                  currentAsset := none } := by
  rw [set_no_hooks opts { st with currentAsset := some a } key a.name hpp hint hm]

/-- Folding the inner `set` loop over a list of keys, none of whose
normalized forms is `hname`, preserves the pipeline invariant. -/
theorem setKeysFold_invariant (opts : Options) (a : CAsset) (hname : String)
    (hpp : opts.publicPath = none) (hint : opts.integrity = false)
    (han : a.name ≠ hname) :
    ∀ (keys : List String) (st : ManifestState),
    (∀ k ∈ keys, fixKey k ≠ hname) →
    st.isMerging = false →
    (∀ p ∈ st.assets, p.1 ≠ hname) →
    (∀ p ∈ st.assets, hname ∉ strLeaves p.2) →
    (keys.foldl (fun st key =>
        { (set opts [] { st with currentAsset := some a } key (.str a.name)).1 with
            currentAsset := none }) st).isMerging = false ∧
    (∀ p ∈ (keys.foldl (fun st key =>
        { (set opts [] { st with currentAsset := some a } key (.str a.name)).1 with
            currentAsset := none }) st).assets, p.1 ≠ hname) ∧
    (∀ p ∈ (keys.foldl (fun st key =>
        { (set opts [] { st with currentAsset := some a } key (.str a.name)).1 with
            currentAsset := none }) st).assets, hname ∉ strLeaves p.2) := by
  intro keys
  induction keys with
  | nil =>
    intro st hks hm hstk hstv
    exact ⟨hm, hstk, hstv⟩
  | cons k rest ih =>
    intro st hks hm hstk hstv
    rw [List.foldl_cons, reportSetStep_eq opts st a k hpp hint hm]
    refine ih _ (fun k2 hk2 => hks k2 (List.mem_cons_of_mem k hk2)) hm ?_ ?_
    · intro p hp
      rcases mem_objSet hp with h2 | h2
      · rw [h2]
        exact hks k (List.mem_cons_self k rest)
      · exact hstk p h2
    · intro p hp
      rcases mem_objSet hp with h2 | h2
      · rw [h2]
        rw [strLeaves_str]
        simp [Ne.symm han]
      · exact hstv p h2

/-- One full `reportManifestStep` preserves the pipeline invariant, given
that no recorded or fallback key normalizes to `hname` and the asset itself
is not named `hname`. -/
theorem reportManifestStep_invariant (opts : Options)
    (an : List (String × String)) (hname : String) (a : CAsset)
    (hpp : opts.publicPath = none) (hint : opts.integrity = false)
    (hkeys : ∀ p ∈ an, fixKey p.1 ≠ hname)
    (han : a.name ≠ hname)
    (hfb : fixKey (fallbackName opts a) ≠ hname)
    (st : ManifestState)
    (hm : st.isMerging = false)
    (hstk : ∀ p ∈ st.assets, p.1 ≠ hname)
    (hstv : ∀ p ∈ st.assets, hname ∉ strLeaves p.2) :
    (reportManifestStep opts [] an st a).isMerging = false ∧
    (∀ p ∈ (reportManifestStep opts [] an st a).assets, p.1 ≠ hname) ∧
    (∀ p ∈ (reportManifestStep opts [] an st a).assets, hname ∉ strLeaves p.2) := by
  unfold reportManifestStep
  refine setKeysFold_invariant opts a hname hpp hint han _ st ?_ hm hstk hstv
  intro k hk
  by_cases hempty : (findMapKeysByValue an a.name).isEmpty = true
  · rw [if_pos hempty] at hk
    rw [List.mem_singleton] at hk
    rw [hk]
    exact hfb
  · rw [if_neg hempty] at hk
    exact hkeys _ (mem_findMapKeysByValue hk)

/-- The whole report loop preserves the pipeline invariant. -/
theorem reportFold_invariant (opts : Options)
    (an : List (String × String)) (hname : String)
    (hpp : opts.publicPath = none) (hint : opts.integrity = false)
    (hkeys : ∀ p ∈ an, fixKey p.1 ≠ hname) :
    ∀ (assetsL : List CAsset) (st : ManifestState),
    (∀ a ∈ assetsL, a.name ≠ hname) →
    (∀ a ∈ assetsL, fixKey (fallbackName opts a) ≠ hname) →
    st.isMerging = false →
    (∀ p ∈ st.assets, p.1 ≠ hname) →
    (∀ p ∈ st.assets, hname ∉ strLeaves p.2) →
    (assetsL.foldl (reportManifestStep opts [] an) st).isMerging = false ∧
    (∀ p ∈ (assetsL.foldl (reportManifestStep opts [] an) st).assets, p.1 ≠ hname) ∧
    (∀ p ∈ (assetsL.foldl (reportManifestStep opts [] an) st).assets,
        hname ∉ strLeaves p.2) := by
  intro assetsL
  induction assetsL with
  | nil =>
    intro st _ _ hm hstk hstv
    exact ⟨hm, hstk, hstv⟩
  | cons a rest ih =>
    intro st hnames hfbs hm hstk hstv
    rw [List.foldl_cons]
    obtain ⟨hm2, hstk2, hstv2⟩ := reportManifestStep_invariant opts an hname a hpp hint
      hkeys (hnames a (List.mem_cons_self a rest)) (hfbs a (List.mem_cons_self a rest))
      st hm hstk hstv
    exact ih _ (fun b hb => hnames b (List.mem_cons_of_mem a hb))
      (fun b hb => hfbs b (List.mem_cons_of_mem a hb)) hm2 hstk2 hstv2

/-- Values pushed by `group` all come from the mapper; a predicate holding
of every mapped item holds of every grouped value. -/
theorem group_values_pred (Pv : JsValue → Prop) (gg : String → String)
    (mp : String → JsValue) :
    ∀ (data : List String) (acc : List (String × List JsValue)),
    (∀ item ∈ data, Pv (mp item)) →
    (∀ q ∈ acc, ∀ v ∈ q.2, Pv v) →
    ∀ q ∈ data.foldl (fun obj item =>
        let g := gg item
        match objGet obj g with
        | some xs => objSet obj g (xs ++ [mp item])
        | none => obj ++ [(g, [mp item])]) acc,
      ∀ v ∈ q.2, Pv v := by
  intro data
  induction data with
  | nil =>
    intro acc _ hacc q hq
    exact hacc q hq
  | cons item rest ih =>
    intro acc hdata hacc q hq
    rw [List.foldl_cons] at hq
    refine ih _ (fun i hi => hdata i (List.mem_cons_of_mem _ hi)) ?_ q hq
    intro q2 hq2 v2 hv2
    rcases hxs : objGet acc (gg item) with _ | xs
    · simp only [hxs] at hq2
      rcases List.mem_append.mp hq2 with h2 | h2
      · exact hacc q2 h2 v2 hv2
      · rw [List.mem_singleton] at h2
        rw [h2] at hv2
        rw [List.mem_singleton] at hv2
        rw [hv2]
        exact hdata item (List.mem_cons_self item rest)
    · simp only [hxs] at hq2
      rcases mem_objSet hq2 with h2 | h2
      · rw [h2] at hv2
        rcases List.mem_append.mp hv2 with h3 | h3
        · exact hacc (gg item, xs) (objGet_mem hxs) v2 h3
        · rw [List.mem_singleton] at h3
          rw [h3]
          exact hdata item (List.mem_cons_self item rest)
      · exact hacc q2 h2 v2 hv2

/-- The same, phrased for `group` itself. -/
theorem mem_group_values (Pv : JsValue → Prop) (gg : String → String)
    (mp : String → JsValue) (data : List String)
    (hdata : ∀ item ∈ data, Pv (mp item)) :
    ∀ q ∈ group data gg mp, ∀ v ∈ q.2, Pv v := by
  unfold group
  exact group_values_pred Pv gg mp data [] hdata (by intro q hq; cases hq)

/-- A string absent from every grouped value's leaves is absent from the
leaves of the rendered group object. -/
theorem groupToJs_strLeaves (g : List (String × List JsValue)) (hname : String)
    (hg : ∀ q ∈ g, ∀ v ∈ q.2, hname ∉ strLeaves v) :
    hname ∉ strLeaves (groupToJs g) := by
  unfold groupToJs
  rw [strLeaves_obj]
  intro hmem
  rw [List.mem_flatten] at hmem
  obtain ⟨l, hl, hin⟩ := hmem
  rw [List.mem_map] at hl
  obtain ⟨p, hp, hpl⟩ := hl
  rw [List.mem_map] at hp
  obtain ⟨q, hq, hqp⟩ := hp
  rw [← hqp] at hpl
  simp only at hpl
  rw [← hpl, strLeaves_arr, List.mem_flatten] at hin
  obtain ⟨l2, hl2, hin2⟩ := hin
  rw [List.mem_map] at hl2
  obtain ⟨v, hv, hvl⟩ := hl2
  rw [← hvl] at hin2
  exact hg q hq v hv hin2

/-- With `entrypointsUseAssets` off and no public-path rewriting, the
entrypoints block for an entry point never mentions a name in `hmrFiles`. -/
theorem entrypointValue_strLeaves (opts : Options)
    (assets : List (String × JsValue)) (an : List (String × String))
    (hmrFiles : List String) (ep : Entrypoint) (hname : String)
    (huse : opts.entrypointsUseAssets = false)
    (hpp : opts.publicPath = none)
    (hh : hname ∈ hmrFiles) :
    hname ∉ strLeaves (entrypointValue opts assets an hmrFiles ep) := by
  have hmp : ∀ (files : List String),
      ∀ q ∈ group (files.filter (fun f => !hmrFiles.contains f))
        (getExtensionGroup opts.fileExtRegex)
        (getAssetOrFilename opts assets an),
      ∀ v ∈ q.2, hname ∉ strLeaves v := by
    intro files
    refine mem_group_values _ _ _ _ ?_
    intro f hf
    have hf2 := List.mem_filter.mp hf
    have hfn : ¬ hmrFiles.contains f := by simpa using hf2.2
    have hne : f ≠ hname := by
      intro he
      rw [he] at hfn
      exact hfn (List.contains_iff_exists_mem_beq.mpr ⟨hname, hh, by simp⟩)
    unfold getAssetOrFilename
    rw [huse]
    simp only [Bool.false_eq_true, if_false]
    rw [getPublicPath, hpp]
    rw [strLeaves_str]
    simp [Ne.symm hne]
  unfold entrypointValue
  rw [strLeaves_obj]
  intro hmem
  rw [List.mem_flatten] at hmem
  obtain ⟨l, hl, hin⟩ := hmem
  rw [List.mem_map] at hl
  obtain ⟨p, hp, hpl⟩ := hl
  -- every field of the block is a rendered group
  have hfield : ∀ p2 ∈ (ep.childAssets.foldl (fun v ca =>
      objSet v ca.1
        (groupToJs (group (ca.2.filter (fun f => !hmrFiles.contains f))
          (getExtensionGroup opts.fileExtRegex)
          (getAssetOrFilename opts assets an))))
      [("assets",
        groupToJs (group (ep.files.filter (fun f => !hmrFiles.contains f))
          (getExtensionGroup opts.fileExtRegex)
          (getAssetOrFilename opts assets an)))]),
      hname ∉ strLeaves p2.2 := by
    have hbase : ∀ p2 ∈ [("assets",
        groupToJs (group (ep.files.filter (fun f => !hmrFiles.contains f))
          (getExtensionGroup opts.fileExtRegex)
          (getAssetOrFilename opts assets an)))],
        hname ∉ strLeaves p2.2 := by
      intro p2 hp2
      rw [List.mem_singleton] at hp2
      rw [hp2]
      exact groupToJs_strLeaves _ _ (hmp ep.files)
    generalize hstart : ([("assets",
        groupToJs (group (ep.files.filter (fun f => !hmrFiles.contains f))
          (getExtensionGroup opts.fileExtRegex)
          (getAssetOrFilename opts assets an)))] : List (String × JsValue)) = start
    rw [hstart] at hbase
    clear hstart
    induction ep.childAssets generalizing start with
    | nil => exact hbase
    | cons ca rest ih =>
      rw [List.foldl_cons]
      refine ih _ ?_
      intro p2 hp2
      rcases mem_objSet hp2 with h2 | h2
      · rw [h2]
        exact groupToJs_strLeaves _ _ (hmp ca.2)
      · exact hbase p2 h2
  rw [← hpl] at hin
  exact hfield p hp hin

/-- `get` returns the default or a stored value. -/
theorem get_cases (st : ManifestState) (k : String) (d : JsValue) :
    get st k d = d ∨ ∃ p ∈ st.assets, get st k d = p.2 := by
  unfold get
  cases ha : objGet st.assets k with
  | some v =>
    by_cases ht : truthy v = true
    · simp only [Option.getD_some, ht, if_true]
      exact Or.inr ⟨(k, v), objGet_mem ha, rfl⟩
    · have ht2 : truthy v = false := by simpa using ht
      simp only [Option.getD_some, ht2, Bool.false_eq_true, if_false]
      cases hb : objGet st.assets (fixKey k) with
      | some w =>
        by_cases htw : truthy w = true
        · simp only [Option.getD_some, htw, if_true]
          exact Or.inr ⟨(fixKey k, w), objGet_mem hb, rfl⟩
        · have htw2 : truthy w = false := by simpa using htw
          simp only [Option.getD_some, htw2, Bool.false_eq_true, if_false]
          exact Or.inl (by trivial)
      | none =>
        simp only [Option.getD_none, truthy_undefined, Bool.false_eq_true, if_false]
        exact Or.inl (by trivial)
  | none =>
    simp only [Option.getD_none, truthy_undefined, Bool.false_eq_true, if_false]
    cases hb : objGet st.assets (fixKey k) with
    | some w =>
      by_cases htw : truthy w = true
      · simp only [Option.getD_some, htw, if_true]
        exact Or.inr ⟨(fixKey k, w), objGet_mem hb, rfl⟩
      · have htw2 : truthy w = false := by simpa using htw
        simp only [Option.getD_some, htw2, Bool.false_eq_true, if_false]
        exact Or.inl (by trivial)
    | none =>
      simp only [Option.getD_none, truthy_undefined, Bool.false_eq_true, if_false]
      exact Or.inl (by trivial)

/-- The leaves of a spread field are leaves of the spread value. -/
theorem spreadFields_strLeaves {v : JsValue} {p : String × JsValue}
    (hp : p ∈ spreadFields v) {s : String} (hs : s ∈ strLeaves p.2) :
    s ∈ strLeaves v := by
  cases v with
  | obj fs =>
    rw [strLeaves_obj, List.mem_flatten]
    exact ⟨strLeaves p.2, List.mem_map.mpr ⟨p, hp, rfl⟩, hs⟩
  | null => cases hp
  | undefined => cases hp
  | bool b => cases hp
  | num n => cases hp
  | str s2 => cases hp
  | arr xs => cases hp

/-- The name of an HMR-flagged compilation asset lands in `hmrFiles`. -/
theorem hmr_name_mem (cassets : List CAsset) (h : CAsset)
    (hm : h ∈ cassets) (hh : assetHMR h = true) :
    h.name ∈ (getCompilationAssets cassets).2 :=
  List.mem_map.mpr ⟨h, List.mem_filter.mpr ⟨hm, hh⟩, rfl⟩

/-- Membership in the filtered asset list implies membership in the
compilation's assets, with both flags false. -/
theorem mem_getCompilationAssets_fst {cassets : List CAsset} {a : CAsset}
    (ha : a ∈ (getCompilationAssets cassets).1) :
    a ∈ cassets ∧ assetHMR a = false := by
  have h2 := List.mem_filter.mp ha
  refine ⟨h2.1, ?_⟩
  have h3 := h2.2
  simp only [Bool.and_eq_true, Bool.not_eq_eq_eq_not, Bool.not_true] at h3
  exact h3.1

/-- Folding property-preserving object assignments preserves a field
predicate. -/
theorem foldl_objSet_pred {α : Type} (Pq : String × α → Prop) :
    ∀ (items : List (String × α)) (start : List (String × α)),
    (∀ q ∈ start, Pq q) →
    (∀ q ∈ items, Pq q) →
    ∀ q ∈ items.foldl (fun fs p => objSet fs p.1 p.2) start, Pq q := by
  intro items
  induction items with
  | nil =>
    intro start hs _ q hq
    exact hs q hq
  | cons i rest ih =>
    intro start hs hi q hq
    rw [List.foldl_cons] at hq
    refine ih _ ?_ (fun q2 hq2 => hi q2 (List.mem_cons_of_mem i hq2)) q hq
    intro q2 hq2
    rcases mem_objSet hq2 with h2 | h2
    · rw [h2]
      exact hi i (List.mem_cons_self i rest)
    · exact hs q2 h2

/-- C3: a compilation asset flagged as hot-module-replacement never appears
in the final manifest — not as a manifest key, not as a manifest value, and
not inside the entrypoints block — no matter which discovery source
(loader emission or asset modules via `assetNames`, the chunk asset list,
the stats assets) observed it.  The side conditions say that no key derived
from the discovery records of *other* assets happens to collide with the
HMR file's name, that asset names are unique (a non-HMR asset is not named
like the HMR file), and that the build runs with the default customize-less,
public-path-less, integrity-less configuration with the entrypoints block
stored under `entrypointsKey`. -/
theorem hmr_asset_never_in_manifest
    (opts : Options) (st : ManifestState) (inp : ReportInput) (h : CAsset)
    (epk : String)
    (hmem : h ∈ inp.cassets) (hhmr : assetHMR h = true)
    (hpp : opts.publicPath = none) (hint : opts.integrity = false)
    (huse : opts.entrypointsUseAssets = false)
    (hepk : opts.entrypointsKey = some epk) (hepkne : epk ≠ h.name)
    (hassets : st.assets = []) (hmerging : st.isMerging = false)
    (H1 : ∀ p ∈ inp.assetNames, fixKey p.1 ≠ h.name)
    (H2 : ∀ a ∈ inp.statsAssets, ∀ sf, assetSourceFilename a = some sf →
        fixKey (if opts.contextRelativeKeys then sf
                else joinPosix (dirnamePosix a.name) (basenamePosix sf)) ≠ h.name)
    (H3 : ∀ c ∈ inp.assetsByChunkName, ∀ f ∈ c.2,
        fixKey (c.1 ++ getExtension opts.fileExtRegex f) ≠ h.name)
    (H4 : ∀ a ∈ inp.cassets, assetHMR a = false → a.name ≠ h.name)
    (H5 : ∀ a ∈ inp.cassets, assetHMR a = false →
        fixKey (fallbackName opts a) ≠ h.name) :
    ∀ p ∈ toJSON opts (handleProcessAssetsReport opts [] st inp).assets,
      p.1 ≠ h.name ∧ h.name ∉ strLeaves p.2 := by
  intro p hp
  rw [mem_toJSON] at hp
  have hkeysAn2 : ∀ q ∈ processAssetsByChunkName opts.fileExtRegex
      (processStatsAssets opts.contextRelativeKeys inp.assetNames inp.statsAssets)
      inp.assetsByChunkName (getCompilationAssets inp.cassets).2,
      fixKey q.1 ≠ h.name := by
    intro q hq
    rcases mem_processAssetsByChunkName hq with h1 | h1
    · rcases mem_processStatsAssets h1 with h2 | h2
      · exact H1 q h2
      · obtain ⟨a, ha, sf, hsf, hkey⟩ := h2
        rw [hkey]
        exact H2 a ha sf hsf
    · obtain ⟨c, hc, f, hf, hnf, hpf⟩ := h1
      rw [hpf]
      exact H3 c hc f hf
  obtain ⟨hm1, hk1, hv1⟩ := reportFold_invariant opts _ h.name hpp hint hkeysAn2
      (getCompilationAssets inp.cassets).1 st
      (fun a ha => H4 a (mem_getCompilationAssets_fst ha).1 (mem_getCompilationAssets_fst ha).2)
      (fun a ha => H5 a (mem_getCompilationAssets_fst ha).1 (mem_getCompilationAssets_fst ha).2)
      hmerging
      (by intro q hq; rw [hassets] at hq; cases hq)
      (by intro q hq; rw [hassets] at hq; cases hq)
  unfold handleProcessAssetsReport at hp
  by_cases hep : opts.entrypoints = true
  · simp only [hep, if_true, hepk, setRaw] at hp
    rcases mem_objSet hp with h1 | h1
    · rw [h1]
      refine ⟨hepkne, ?_⟩
      rw [strLeaves_obj]
      intro hcontra
      rw [List.mem_flatten] at hcontra
      obtain ⟨l, hl, hin⟩ := hcontra
      rw [List.mem_map] at hl
      obtain ⟨q, hq, hql⟩ := hl
      rw [← hql] at hin
      revert hin
      show h.name ∉ strLeaves q.2
      refine foldl_objSet_pred (fun q => h.name ∉ strLeaves q.2) _ _ ?_ ?_ q hq
      · intro q2 hq2 hcon
        rcases get_cases ((getCompilationAssets inp.cassets).1.foldl
            (reportManifestStep opts []
              (processAssetsByChunkName opts.fileExtRegex
                (processStatsAssets opts.contextRelativeKeys inp.assetNames inp.statsAssets)
                inp.assetsByChunkName (getCompilationAssets inp.cassets).2)) st)
            epk .undefined with hg | hg
        · rw [hg] at hq2
          cases hq2
        · obtain ⟨r, hr, hg2⟩ := hg
          rw [hg2] at hq2
          exact hv1 r hr (spreadFields_strLeaves hq2 hcon)
      · intro q2 hq2
        rw [List.mem_map] at hq2
        obtain ⟨ep, hepmem, heq⟩ := hq2
        rw [← heq]
        exact entrypointValue_strLeaves opts _ _ _ ep h.name huse hpp
          (hmr_name_mem inp.cassets h hmem hhmr)
    · exact ⟨hk1 p h1, hv1 p h1⟩
  · simp only [hep, if_false] at hp
    exact ⟨hk1 p hp, hv1 p hp⟩

/-- The HMR asset of the C3 witness. -/
def c3hmr : CAsset :=
  { name := "abc.hot-update.js", info := [("hotModuleReplacement", .bool true)] }

/-- A normal asset observed alongside it. -/
def c3main : CAsset :=
  { name := "main.abc123.js", info := [("sourceFilename", .str "src/main.js")] }

/-- Options for the C3 witness: defaults with the entrypoints block on. -/
def c3opts : Options := { defaultOptions with entrypoints := true }

/-- Report input for the C3 witness: every discovery source observed the HMR
file (the loader recorded it in `assetNames`, the chunk lists it, the stats
assets and entry points mention it). -/
def c3input : ReportInput :=
  { cassets := [c3hmr, c3main]
    statsAssets := [c3main, c3hmr]
    assetNames := [("main.js", "main.abc123.js"), ("hot-src.js", "abc.hot-update.js")]
    assetsByChunkName := [("main", ["main.abc123.js", "abc.hot-update.js"])]
    entrypoints := [{ name := "main"
                      files := ["main.abc123.js", "abc.hot-update.js"]
                      childAssets := [("preload", ["abc.hot-update.js"])] }] }

/-- Witness for C3 at the concrete input. -/
theorem hmr_asset_never_in_manifest_witness :
    assetHMR c3hmr = true ∧
    (∀ p ∈ toJSON c3opts (handleProcessAssetsReport c3opts [] freshState c3input).assets,
      p.1 ≠ c3hmr.name ∧ c3hmr.name ∉ strLeaves p.2) :=
  ⟨rfl,
    hmr_asset_never_in_manifest c3opts freshState c3input c3hmr "entrypoints"
      (List.mem_cons_self _ _) rfl rfl rfl rfl rfl (by decide) rfl rfl
      (by decide)
      (by
        intro a ha sf hsf
        cases ha with
        | head =>
          have hsf2 : some "src/main.js" = some sf := hsf
          have hsf3 : sf = "src/main.js" := by
            injection hsf2 with h2
            exact h2.symm
          rw [hsf3]
          decide
        | tail _ hb =>
          cases hb with
          | head => exact (nomatch hsf)
          | tail _ hc => cases hc)
      (by decide) (by decide) (by decide)⟩

end WAM
